import Mathlib



/-! ## Definitions: the embedded data model and operations -/

/-- Whitespace characters removed by Python's `str.strip()` (ASCII subset). -/
def isWS (c : Char) : Bool :=
  c = ' ' || c = '\t' || c = '\n' || c = '\r' || c = '\x0b' || c = '\x0c'

/-- `str.strip()` on a character list: drop whitespace at both ends. -/
def stripList (l : List Char) : List Char :=
  ((l.dropWhile isWS).reverse.dropWhile isWS).reverse

/-- `str.strip()` on strings. -/
def strip (s : String) : String :=
  ⟨stripList s.data⟩

/-- Decimal digit character. -/
def digitChar (n : Nat) : Char := Char.ofNat (48 + n)

/-- Decimal digits of a natural number, most significant first; `fuel`
bounds the recursion and each caller passes enough of it. -/
def natDigitsAux : Nat → Nat → List Char
  | 0, _ => []
  | fuel + 1, n =>
    if n < 10 then [digitChar n]
    else natDigitsAux fuel (n / 10) ++ [digitChar (n % 10)]

/-- Decimal representation of a natural number. -/
def natDigits (n : Nat) : List Char := natDigitsAux (n + 1) n

/-- Python format `02d` as in the source's target-date construction:
zero-pad to width 2. -/
def pad2 (n : Nat) : List Char := (if n < 10 then ['0'] else []) ++ natDigits n

/-- Python `%Y` formatting directive: zero-pad the year to width 4. -/
def pad4 (n : Nat) : List Char :=
  (if n < 10 then ['0', '0', '0']
   else if n < 100 then ['0', '0']
   else if n < 1000 then ['0']
   else []) ++ natDigits n

/-- Numeric value of a decimal digit character, if it is one. -/
def digitVal (c : Char) : Option Nat :=
  if '0' ≤ c ∧ c ≤ '9' then some (c.toNat - 48) else none

/-- Gregorian leap-year rule. -/
def isLeapYear (y : Nat) : Bool := y % 4 = 0 && (y % 100 ≠ 0 || y % 400 = 0)

/-- Number of days of month `m` of year `y`. -/
def daysInMonth (y m : Nat) : Nat :=
  if m = 2 then (if isLeapYear y then 29 else 28)
  else if m = 4 || m = 6 || m = 9 || m = 11 then 30
  else 31

/-- Parse exactly the ten-character `YYYY-MM-DD` layout into a raw
year-month-day triple. -/
def parseDate10 : List Char → Option (Nat × Nat × Nat)
  | [y1, y2, y3, y4, h1, m1, m2, h2, d1, d2] =>
    if h1 = '-' ∧ h2 = '-' then
      match digitVal y1, digitVal y2, digitVal y3, digitVal y4,
            digitVal m1, digitVal m2, digitVal d1, digitVal d2 with
      | some a, some b, some c, some d, some e, some f, some g, some h =>
        some (((a * 10 + b) * 10 + c) * 10 + d, e * 10 + f, g * 10 + h)
      | _, _, _, _, _, _, _, _ => none
    else none
  | _ => none

/-- `parse_date_safe`: parse the first ten characters of the string as a
date in the documented ISO `YYYY-MM-DD` layout, `none` on any failure
(bad layout or no real calendar date). -/
def parseDateSafe (s : String) : Option (Nat × Nat × Nat) :=
  match parseDate10 (s.data.take 10) with
  | none => none
  | some (y, m, d) =>
    if 1 ≤ y ∧ y ≤ 9999 ∧ 1 ≤ m ∧ m ≤ 12 ∧ 1 ≤ d ∧ d ≤ daysInMonth y m then
      some (y, m, d)
    else none

/-- An account record: `id`, `name`, `balance`.  The extra `opening`
field is a ghost field recording the balance at creation; no operation
ever reads it, it only serves to state the balance invariant. -/
structure Account where
  id : String
  name : String
  balance : Int
  opening : Int
deriving DecidableEq, Repr

/-- A transaction record. -/
structure Tx where
  id : String
  date : String
  account : String
  amount : Int
  memo : String
deriving DecidableEq, Repr

/-- A fixed-cost (recurring charge) template record. -/
structure FixedCost where
  id : String
  name : String
  account : String
  amount : Int
  memo : String
  day : Nat
deriving DecidableEq, Repr

/-- The three in-memory collections. -/
structure Ledger where
  accounts : List Account
  transactions : List Tx
  fixedCosts : List FixedCost
deriving DecidableEq, Repr

/-- Numeric encoding of a calendar date triple, monotone with respect to
the lexicographic date order on real dates (month at most 12, day at
most 31). -/
def dateEnc : Nat × Nat × Nat → Nat
  | (y, m, d) => y * 10000 + m * 100 + d

/-- First component of the sort key of `sort_transactions_inplace`:
the flag sending unparsable dates last. -/
def txKey1 (t : Tx) : Nat :=
  match parseDateSafe t.date with
  | none => 1
  | some _ => 0

/-- Second component of the sort key: the parsed date (the constant
`date.max`, that is 9999-12-31, when parsing fails). -/
def txKey2 (t : Tx) : Nat :=
  match parseDateSafe t.date with
  | none => dateEnc (9999, 12, 31)
  | some p => dateEnc p

/-- Lexicographic comparison of two character lists by code point —
Python's string order, used for the id tie-break. -/
def strLeAux : List Char → List Char → Bool
  | [], _ => true
  | _ :: _, [] => false
  | c :: cs, d :: ds => if c = d then strLeAux cs ds else decide (c < d)

/-- Lexicographic string comparison (Python's `<=` on strings). -/
def strLe (s t : String) : Bool := strLeAux s.data t.data

/-- The transaction ordering of `sort_transactions_inplace`:
lexicographic on (unparsable-last flag, parsed date, id string). -/
def txLe (t u : Tx) : Prop :=
  txKey1 t < txKey1 u ∨ (txKey1 t = txKey1 u ∧
    (txKey2 t < txKey2 u ∨ (txKey2 t = txKey2 u ∧ strLe t.id u.id = true)))

instance : DecidableRel txLe := fun t u => by
  unfold txLe; infer_instance

/-- `sort_transactions_inplace`: stable sort of the transaction list by
(unparsable-last flag, parsed date, id).  Python's `list.sort` is a
stable sort with respect to this total preorder, matched here by a
stable insertion sort. -/
def sortTransactions (l : List Tx) : List Tx := l.insertionSort txLe

example : strip "  A " = "A" := by decide

example : parseDateSafe "2024-05-01" = some (2024, 5, 1) := by decide

example : parseDateSafe "2024-02-30" = none := by decide

example : parseDateSafe "garbage" = none := by decide

/-- Balance update of the manual add-transaction and delete-transaction
handlers: add `amt` to the balance of the first account whose name is
`name` (the source loop with `break`); no change when no name matches. -/
def applyFirst (name : String) (amt : Int) : List Account → List Account
  | [] => []
  | a :: rest =>
    if a.name = name then { a with balance := a.balance + amt } :: rest
    else a :: applyFirst name amt rest

/-- Balance update of the batch handler through `acc_map`: the dict
comprehension keeps, for each name, the last account with that name, so
the write lands on the last matching account. -/
def applyLast (name : String) (amt : Int) : List Account → List Account
  | [] => []
  | a :: rest =>
    if rest.any (fun b => b.name = name) then a :: applyLast name amt rest
    else if a.name = name then { a with balance := a.balance + amt } :: rest
    else a :: applyLast name amt rest

/-- The names of the accounts, in list order. -/
def accNames (accs : List Account) : List String := accs.map (fun a => a.name)

/-- The add-account form handler: reject a name that strips to empty
(error message, no mutation), otherwise append a fresh account whose
balance and (ghost) opening are the entered opening balance. -/
def addAccount (s : Ledger) (id name : String) (opening : Int) : Ledger :=
  if strip name = "" then s
  else { s with accounts := s.accounts ++ [⟨id, strip name, opening, opening⟩] }

/-- The delete-account button handler: drop every account with the id,
leaving transactions untouched. -/
def deleteAccount (s : Ledger) (id : String) : Ledger :=
  { s with accounts := s.accounts.filter (fun a => a.id ≠ id) }

/-- The add-fixed-cost form handler: `none` models the validation error
branch (empty stripped name: message shown, no mutation); otherwise the
template is appended with the supplied fresh id. -/
def addFixed (s : Ledger) (id name account : String) (amount : Int)
    (memo : String) (day : Nat) : Option Ledger :=
  if strip name = "" then none
  else some { s with fixedCosts :=
    s.fixedCosts ++ [⟨id, strip name, account, amount, strip memo, day⟩] }

/-- The delete-fixed-cost button handler. -/
def deleteFixed (s : Ledger) (id : String) : Ledger :=
  { s with fixedCosts := s.fixedCosts.filter (fun fc => fc.id ≠ id) }

/-- The add-transaction form handler: add the amount to the first
account matching the entered name (if any), append the transaction and
re-sort. -/
def addTx (s : Ledger) (id date account : String) (amount : Int)
    (memo : String) : Ledger :=
  { s with
    accounts := applyFirst account amount s.accounts,
    transactions :=
      sortTransactions (s.transactions ++ [⟨id, date, account, amount, strip memo⟩]) }

/-- The delete-transaction button handler: locate the first transaction
with the id; if found, subtract its amount from the first account whose
name matches its account field, drop every transaction with the id and
re-sort.  Absent id: no mutation. -/
def deleteTx (s : Ledger) (txId : String) : Ledger :=
  match s.transactions.find? (fun t => t.id = txId) with
  | none => s
  | some target =>
    { s with
      accounts := applyFirst target.account (-target.amount) s.accounts,
      transactions := sortTransactions (s.transactions.filter (fun t => t.id ≠ txId)) }

/-- The composed memo of a generated transaction. -/
def composedMemo (fc : FixedCost) : String :=
  let base := "固定費:" ++ strip fc.name
  if strip fc.memo = "" then base else base ++ " / " ++ strip fc.memo

/-- The target date string of a template for the current month. -/
def targetDate (monthStr : String) (day : Nat) : String :=
  monthStr ++ "-" ++ ⟨pad2 day⟩

/-- The value-equality duplicate test of the batch handler. -/
def dupMatches (txDate txAccount : String) (amount : Int) (txMemo : String)
    (t : Tx) : Bool :=
  t.date = txDate && strip t.account = txAccount && t.amount = amount &&
    strip t.memo = txMemo

/-- Duplicate test specialised to a template. -/
def isDupOf (monthStr : String) (fc : FixedCost) (t : Tx) : Bool :=
  dupMatches (targetDate monthStr fc.day) (strip fc.account) fc.amount
    (composedMemo fc) t

/-- How the batch handler classifies one template. -/
inductive Outcome
  | added
  | future
  | dup
  | noAccount
deriving DecidableEq, Repr

/-- Classification of one template by the batch handler in the current
intermediate state: the not-yet-due test first, then the duplicate scan,
then the account-existence test against the keys of `acc_map` (the raw,
untrimmed account names). -/
def stepOutcome (accs : List Account) (txs : List Tx) (todayDay : Nat)
    (monthStr : String) (fc : FixedCost) : Outcome :=
  if todayDay < fc.day then .future
  else if txs.any (isDupOf monthStr fc) then .dup
  else if (accNames accs).contains (strip fc.account) then .added
  else .noAccount

/-- The four counters reported by the batch handler. -/
structure BatchCounts where
  added : Nat
  skippedFuture : Nat
  skippedDup : Nat
  skippedNoAccount : Nat
deriving DecidableEq, Repr

/-- Intermediate state of the batch loop. -/
structure BatchState where
  accs : List Account
  txs : List Tx
  counts : BatchCounts
deriving DecidableEq, Repr

/-- Processing of one template in the batch loop. -/
def batchStep (todayDay : Nat) (monthStr : String) (mkId : Nat → String)
    (st : BatchState) (fc : FixedCost) : BatchState :=
  match stepOutcome st.accs st.txs todayDay monthStr fc with
  | .future =>
    { st with counts := { st.counts with skippedFuture := st.counts.skippedFuture + 1 } }
  | .dup =>
    { st with counts := { st.counts with skippedDup := st.counts.skippedDup + 1 } }
  | .noAccount =>
    { st with counts := { st.counts with skippedNoAccount := st.counts.skippedNoAccount + 1 } }
  | .added =>
    { accs := applyLast (strip fc.account) fc.amount st.accs,
      txs := st.txs ++
        [⟨mkId st.counts.added, targetDate monthStr fc.day, strip fc.account,
          fc.amount, composedMemo fc⟩],
      counts := { st.counts with added := st.counts.added + 1 } }

/-- The current month string (`%Y-%m`) built from the injected date. -/
def monthString (y m : Nat) : String :=
  String.mk (pad4 y) ++ "-" ++ String.mk (pad2 m)

/-- The fixed-cost batch button handler for the current date with year
`y`, month `m` and day-of-month `todayDay`; `mkId` supplies the fresh
transaction ids in order of generation.  Returns the new ledger and the
four counts. -/
def runBatch (s : Ledger) (y m todayDay : Nat) (mkId : Nat → String) :
    Ledger × BatchCounts :=
  let final := s.fixedCosts.foldl (batchStep todayDay (monthString y m) mkId)
    ⟨s.accounts, s.transactions, ⟨0, 0, 0, 0⟩⟩
  ({ s with accounts := final.accs,
            transactions := sortTransactions final.txs }, final.counts)

example : monthString 2024 5 = "2024-05" := by decide

example : targetDate "2024-05" 7 = "2024-05-07" := by decide

example : composedMemo ⟨"f1", " 家賃 ", "A", -100, "", 25⟩ = "固定費:家賃" := by decide

example : composedMemo ⟨"f1", "家賃", "A", -100, " 月初 ", 25⟩ = "固定費:家賃 / 月初" := by decide

/-- Sum of the amounts of the transactions referencing `name`. -/
def contrib (name : String) (txs : List Tx) : Int :=
  ((txs.filter (fun t => t.account = name)).map (fun t => t.amount)).sum

/-- One account satisfies the balance invariant with respect to a
transaction list: balance equals opening balance plus the summed
amounts of the transactions whose account field matches its name. -/
def accountOk (txs : List Tx) (a : Account) : Prop :=
  a.balance = a.opening + contrib a.name txs

/-- The balance invariant over a whole state. -/
def balInvariant (s : Ledger) : Prop :=
  ∀ a ∈ s.accounts, accountOk s.transactions a

/-- A consistent state: pairwise-distinct account names and the balance
invariant. -/
def Consistent (s : Ledger) : Prop :=
  (accNames s.accounts).Nodup ∧ balInvariant s

instance (txs : List Tx) (a : Account) : Decidable (accountOk txs a) := by
  unfold accountOk; infer_instance

instance (s : Ledger) : Decidable (balInvariant s) := by
  unfold balInvariant; infer_instance

instance (s : Ledger) : Decidable (Consistent s) := by
  unfold Consistent; infer_instance

/-- One user-level mutation, with the fresh ids passed explicitly (the
source draws them from `new_id`, which is collision-resistant). -/
inductive Op where
  | addAccount (id name : String) (opening : Int)
  | deleteAccount (id : String)
  | addTx (id date account : String) (amount : Int) (memo : String)
  | deleteTx (id : String)
  | addFixed (id name account : String) (amount : Int) (memo : String) (day : Nat)
  | deleteFixed (id : String)
  | runBatch (y m todayDay : Nat) (mkId : Nat → String)

/-- Apply one operation; a rejected form submission (validation error)
leaves the state unchanged. -/
def applyOp (s : Ledger) : Op → Ledger
  | .addAccount id name opening => addAccount s id name opening
  | .deleteAccount id => deleteAccount s id
  | .addTx id date account amount memo => addTx s id date account amount memo
  | .deleteTx id => deleteTx s id
  | .addFixed id name account amount memo day =>
    (addFixed s id name account amount memo day).getD s
  | .deleteFixed id => deleteFixed s id
  | .runBatch y m todayDay mkId => (runBatch s y m todayDay mkId).1

/-- Apply a sequence of operations in order. -/
def applyOps (s : Ledger) : List Op → Ledger
  | [] => s
  | op :: ops => applyOps (applyOp s op) ops

/-- Well-formedness side condition of one operation in a given state:
a new account's name must be fresh and not referenced by any existing
transaction, and a deleted transaction id must not be duplicated.  All
other operations need no condition. -/
def opOK (s : Ledger) : Op → Prop
  | .addAccount _ name _ =>
    strip name ≠ "" →
      strip name ∉ accNames s.accounts ∧ contrib (strip name) s.transactions = 0
  | .deleteTx id => (s.transactions.filter (fun t => t.id = id)).length ≤ 1
  | _ => True

/-- All operations of a sequence are well formed in the states where
they execute. -/
def opsOK (s : Ledger) : List Op → Prop
  | [] => True
  | op :: ops => opOK s op ∧ opsOK (applyOp s op) ops

instance instDecOpOK (s : Ledger) (op : Op) : Decidable (opOK s op) := by
  cases op <;> simp only [opOK] <;> infer_instance

def decOpsOK : ∀ (ops : List Op) (s : Ledger), Decidable (opsOK s ops)
  | [], _ => isTrue trivial
  | op :: ops, s => @instDecidableAnd _ _ (instDecOpOK s op) (decOpsOK ops (applyOp s op))

instance (s : Ledger) (ops : List Op) : Decidable (opsOK s ops) := decOpsOK ops s

/-- The fold at the heart of `runBatch`, as a named value. -/
def batchFoldOf (s : Ledger) (y m todayDay : Nat) (mkId : Nat → String) : BatchState :=
  s.fixedCosts.foldl (batchStep todayDay (monthString y m) mkId)
    ⟨s.accounts, s.transactions, ⟨0, 0, 0, 0⟩⟩

/-- The ordering the spec describes: ascending parsed date, every
unparsable date after every parseable one, ties (equal dates or both
unparsable) broken by ascending lexicographic id. -/
def specLeAux (pt pu : Option (Nat × Nat × Nat)) (idt idu : String) : Prop :=
  match pt, pu with
  | some p, some q =>
    (p.1 < q.1 ∨ (p.1 = q.1 ∧ (p.2.1 < q.2.1 ∨ (p.2.1 = q.2.1 ∧ p.2.2 < q.2.2)))) ∨
    (p.1 = q.1 ∧ p.2.1 = q.2.1 ∧ p.2.2 = q.2.2 ∧ strLe idt idu = true)
  | some _, none => True
  | none, some _ => False
  | none, none => strLe idt idu = true

def specLe (t u : Tx) : Prop :=
  specLeAux (parseDateSafe t.date) (parseDateSafe u.date) t.id u.id

instance instDecSpecLeAux : ∀ (pt pu : Option (Nat × Nat × Nat)) (idt idu : String),
    Decidable (specLeAux pt pu idt idu)
  | some _, some _, _, _ => by unfold specLeAux; infer_instance
  | some _, none, _, _ => by unfold specLeAux; infer_instance
  | none, some _, _, _ => by unfold specLeAux; infer_instance
  | none, none, _, _ => by unfold specLeAux; infer_instance

instance : DecidableRel specLe := fun t u => by
  unfold specLe; infer_instance

/-! ## Theorems -/

theorem strLeAux_total : ∀ xs ys : List Char,
    strLeAux xs ys = true ∨ strLeAux ys xs = true
  | [], _ => Or.inl rfl
  | _ :: _, [] => Or.inr rfl
  | c :: cs, d :: ds => by
    by_cases he : c = d
    · subst he
      rcases strLeAux_total cs ds with h | h
      · exact Or.inl (by rw [strLeAux, if_pos rfl]; exact h)
      · exact Or.inr (by rw [strLeAux, if_pos rfl]; exact h)
    · rcases lt_or_gt_of_ne he with hlt | hlt
      · exact Or.inl (by rw [strLeAux, if_neg he]; exact decide_eq_true hlt)
      · refine Or.inr (by
          rw [strLeAux, if_neg (fun hx => he hx.symm)]
          exact decide_eq_true hlt)

theorem strLeAux_trans : ∀ xs ys zs : List Char,
    strLeAux xs ys = true → strLeAux ys zs = true → strLeAux xs zs = true
  | [], _, _ => fun _ _ => rfl
  | x :: xs, [], _ => fun h _ => by rw [strLeAux] at h; cases h
  | _ :: _, _ :: _, [] => fun _ h => by rw [strLeAux] at h; cases h
  | x :: xs, y :: ys, z :: zs => fun h1 h2 => by
    rw [strLeAux] at h1 h2 ⊢
    by_cases hxy : x = y
    · subst hxy
      rw [if_pos rfl] at h1
      by_cases hyz : x = z
      · subst hyz
        rw [if_pos rfl] at h2 ⊢
        exact strLeAux_trans xs ys zs h1 h2
      · rw [if_neg hyz] at h2 ⊢
        exact h2
    · rw [if_neg hxy] at h1
      have hxy2 : x < y := of_decide_eq_true h1
      by_cases hyz : y = z
      · subst hyz
        rw [if_neg hxy]
        exact decide_eq_true hxy2
      · have hyz2 : y < z := of_decide_eq_true (by rw [if_neg hyz] at h2; exact h2)
        have hxz : x < z := hxy2.trans hyz2
        rw [if_neg (by intro he; rw [he] at hxz; exact lt_irrefl z hxz)]
        exact decide_eq_true hxz

theorem strLe_total (s t : String) : strLe s t = true ∨ strLe t s = true :=
  strLeAux_total s.data t.data

theorem strLe_trans {s t u : String} (h1 : strLe s t = true) (h2 : strLe t u = true) :
    strLe s u = true :=
  strLeAux_trans s.data t.data u.data h1 h2

instance : IsTotal Tx txLe := by
  constructor
  intro t u
  unfold txLe
  rcases Nat.lt_trichotomy (txKey1 t) (txKey1 u) with h | h | h
  · exact Or.inl (Or.inl h)
  · rcases Nat.lt_trichotomy (txKey2 t) (txKey2 u) with h2 | h2 | h2
    · exact Or.inl (Or.inr ⟨h, Or.inl h2⟩)
    · rcases strLe_total t.id u.id with h3 | h3
      · exact Or.inl (Or.inr ⟨h, Or.inr ⟨h2, h3⟩⟩)
      · exact Or.inr (Or.inr ⟨h.symm, Or.inr ⟨h2.symm, h3⟩⟩)
    · exact Or.inr (Or.inr ⟨h.symm, Or.inl h2⟩)
  · exact Or.inr (Or.inl h)

instance : IsTrans Tx txLe := by
  constructor
  intro t u v htu huv
  unfold txLe at *
  rcases htu with h1 | ⟨e1, h1⟩
  · rcases huv with h2 | ⟨e2, h2⟩
    · exact Or.inl (h1.trans h2)
    · exact Or.inl (e2 ▸ h1)
  · rcases huv with h2 | ⟨e2, h2⟩
    · exact Or.inl (e1 ▸ h2)
    · refine Or.inr ⟨e1.trans e2, ?_⟩
      rcases h1 with h1 | ⟨f1, h1⟩
      · rcases h2 with h2 | ⟨f2, h2⟩
        · exact Or.inl (h1.trans h2)
        · exact Or.inl (f2 ▸ h1)
      · rcases h2 with h2 | ⟨f2, h2⟩
        · exact Or.inl (f1 ▸ h2)
        · exact Or.inr ⟨f1.trans f2, strLe_trans h1 h2⟩

theorem sortTransactions_perm (l : List Tx) : (sortTransactions l).Perm l :=
  List.perm_insertionSort txLe l

theorem sortTransactions_sorted (l : List Tx) :
    (sortTransactions l).Sorted txLe :=
  List.sorted_insertionSort txLe l

theorem sortTransactions_of_sorted {l : List Tx} (h : l.Sorted txLe) :
    sortTransactions l = l :=
  h.insertionSort_eq

theorem sortTransactions_idem (l : List Tx) :
    sortTransactions (sortTransactions l) = sortTransactions l :=
  sortTransactions_of_sorted (sortTransactions_sorted l)

theorem dropWhile_of_head (p : Char → Bool) (l : List Char)
    (h : ∀ c ∈ l.head?, p c = false) : l.dropWhile p = l := by
  cases l with
  | nil => rfl
  | cons a t =>
    have ha : p a = false := h a rfl
    simp [List.dropWhile_cons, ha]

theorem head_dropWhile (p : Char → Bool) (l : List Char) :
    ∀ c ∈ (l.dropWhile p).head?, p c = false := by
  induction l with
  | nil => intro c hc; simp at hc
  | cons a t ih =>
    intro c hc
    by_cases ha : p a
    · rw [List.dropWhile_cons, if_pos ha] at hc
      exact ih c hc
    · rw [List.dropWhile_cons, if_neg ha] at hc
      simp only [List.head?_cons, Option.mem_def, Option.some.injEq] at hc
      subst hc
      exact Bool.eq_false_iff.mpr ha

theorem getLast_dropWhile (p : Char → Bool) (l : List Char)
    (h : l.dropWhile p ≠ []) : (l.dropWhile p).getLast? = l.getLast? := by
  induction l with
  | nil => simp at h
  | cons a t ih =>
    by_cases ha : p a
    · rw [List.dropWhile_cons, if_pos ha] at h ⊢
      rw [ih h]
      cases t with
      | nil => simp at h
      | cons b u => rw [List.getLast?_cons_cons]
    · rw [List.dropWhile_cons, if_neg ha]

theorem stripList_head (l : List Char) :
    ∀ c ∈ (stripList l).head?, isWS c = false := by
  intro c hc
  unfold stripList at hc
  rw [List.head?_reverse] at hc
  by_cases hz : ((l.dropWhile isWS).reverse.dropWhile isWS) = []
  · rw [hz] at hc; simp at hc
  · rw [getLast_dropWhile isWS _ hz, List.getLast?_reverse] at hc
    exact head_dropWhile isWS l c hc

theorem stripList_last (l : List Char) :
    ∀ c ∈ (stripList l).getLast?, isWS c = false := by
  intro c hc
  unfold stripList at hc
  rw [List.getLast?_reverse] at hc
  exact head_dropWhile isWS _ c hc

theorem stripList_eq_self {l : List Char}
    (h1 : ∀ c ∈ l.head?, isWS c = false)
    (h2 : ∀ c ∈ l.getLast?, isWS c = false) : stripList l = l := by
  unfold stripList
  rw [dropWhile_of_head isWS l h1]
  have hrev : ∀ c ∈ l.reverse.head?, isWS c = false := by
    intro c hc; rw [List.head?_reverse] at hc; exact h2 c hc
  rw [dropWhile_of_head isWS l.reverse hrev, List.reverse_reverse]

theorem stripList_idem (l : List Char) : stripList (stripList l) = stripList l :=
  stripList_eq_self (stripList_head l) (stripList_last l)

theorem strip_data (s : String) : (strip s).data = stripList s.data := rfl

theorem strip_idem (s : String) : strip (strip s) = strip s :=
  congrArg String.mk (stripList_idem s.data)

theorem strip_eq_empty_iff (s : String) : strip s = "" ↔ stripList s.data = [] := by
  constructor
  · intro h
    have := congrArg String.data h
    simpa [strip_data] using this
  · intro h
    unfold strip
    rw [h]

/-- The composed memo of a template never starts nor ends in whitespace,
so the duplicate scan's `strip` leaves it unchanged. -/
theorem composedMemo_head (fc : FixedCost) :
    (composedMemo fc).data.head? = some '固' := by
  unfold composedMemo
  by_cases hm : strip fc.memo = ""
  · rw [if_pos hm]; rfl
  · rw [if_neg hm]; rfl

theorem composedMemo_last (fc : FixedCost) :
    ∀ c ∈ (composedMemo fc).data.getLast?, isWS c = false := by
  intro c hc
  unfold composedMemo at hc
  by_cases hm : strip fc.memo = ""
  · rw [if_pos hm] at hc
    have hdata : ("固定費:" ++ strip fc.name).data =
        ['固', '定', '費', ':'] ++ stripList fc.name.data := rfl
    rw [hdata] at hc
    rcases heq : stripList fc.name.data with _ | ⟨a, t⟩
    · rw [heq] at hc
      simp only [List.append_nil] at hc
      have hcv : ':' = c := by simpa using hc
      subst hcv; rfl
    · rw [heq, List.getLast?_append_of_ne_nil _ (by simp)] at hc
      rw [← heq] at hc
      exact stripList_last fc.name.data c hc
  · rw [if_neg hm] at hc
    have hne : stripList fc.memo.data ≠ [] := by
      intro he; exact hm ((strip_eq_empty_iff fc.memo).mpr he)
    have hdata : (("固定費:" ++ strip fc.name) ++ " / " ++ strip fc.memo).data =
        (("固定費:" ++ strip fc.name) ++ " / ").data ++ stripList fc.memo.data := rfl
    rw [hdata, List.getLast?_append_of_ne_nil _ hne] at hc
    exact stripList_last fc.memo.data c hc

/-- The composed memo of a template never starts nor ends in whitespace,
so the duplicate scan's `strip` leaves it unchanged. -/
theorem strip_composedMemo (fc : FixedCost) :
    strip (composedMemo fc) = composedMemo fc := by
  refine congrArg String.mk (stripList_eq_self ?_ (composedMemo_last fc))
  intro c hc
  rw [composedMemo_head fc] at hc
  have hcv : '固' = c := by simpa using hc
  subst hcv; rfl

theorem contrib_perm (name : String) {l1 l2 : List Tx} (h : l1.Perm l2) :
    contrib name l1 = contrib name l2 :=
  List.Perm.sum_eq ((h.filter _).map _)

theorem contrib_append (name : String) (l1 l2 : List Tx) :
    contrib name (l1 ++ l2) = contrib name l1 + contrib name l2 := by
  simp [contrib, List.filter_append]

theorem contrib_single (name : String) (t : Tx) :
    contrib name [t] = if t.account = name then t.amount else 0 := by
  by_cases h : t.account = name <;> simp [contrib, h]

theorem accNames_applyFirst (name : String) (amt : Int) (accs : List Account) :
    accNames (applyFirst name amt accs) = accNames accs := by
  induction accs with
  | nil => rfl
  | cons a rest ih =>
    by_cases h : a.name = name
    · simp [applyFirst, h, accNames]
    · simp [applyFirst, h, accNames] at ih ⊢
      exact ih

theorem applyFirst_of_not_mem {name : String} (amt : Int) {accs : List Account}
    (h : name ∉ accNames accs) : applyFirst name amt accs = accs := by
  induction accs with
  | nil => rfl
  | cons a rest ih =>
    simp only [accNames, List.map_cons, List.mem_cons, not_or] at h
    rw [applyFirst, if_neg (fun he => h.1 he.symm), ih h.2]

theorem accNames_applyLast (name : String) (amt : Int) (accs : List Account) :
    accNames (applyLast name amt accs) = accNames accs := by
  induction accs with
  | nil => rfl
  | cons a rest ih =>
    by_cases hr : rest.any (fun b => b.name = name)
    · simp [applyLast, hr, accNames] at ih ⊢; exact ih
    · by_cases h : a.name = name
      · simp [applyLast, hr, h, accNames]
      · simp [applyLast, hr, h, accNames] at ih ⊢
        exact ih

theorem applyLast_eq_applyFirst {accs : List Account}
    (hnd : (accNames accs).Nodup) (name : String) (amt : Int) :
    applyLast name amt accs = applyFirst name amt accs := by
  induction accs with
  | nil => rfl
  | cons a rest ih =>
    simp only [accNames, List.map_cons, List.nodup_cons] at hnd
    by_cases hr : rest.any (fun b => b.name = name)
    · have hmem : name ∈ accNames rest := by
        rcases List.any_eq_true.mp hr with ⟨b, hb, he⟩
        exact List.mem_map.mpr ⟨b, hb, of_decide_eq_true he⟩
      have hane : ¬ a.name = name := fun he => hnd.1 (he ▸ hmem)
      rw [applyLast, if_pos hr, applyFirst, if_neg hane, ih hnd.2]
    · have hnmem : name ∉ accNames rest := by
        intro hmem
        rcases List.mem_map.mp hmem with ⟨b, hb, he⟩
        exact absurd (List.any_eq_true.mpr ⟨b, hb, decide_eq_true he⟩) hr
      by_cases ha : a.name = name
      · rw [applyLast, if_neg hr, if_pos ha, applyFirst, if_pos ha]
      · rw [applyLast, if_neg hr, if_neg ha, applyFirst, if_neg ha, ih hnd.2]

/-- Core lemma: after the first-match balance update, each account's
balance is its old invariant value plus the delta exactly when its name
is the targeted one (distinct names). -/
theorem applyFirst_ok {accs : List Account} {txs : List Tx}
    (hnd : (accNames accs).Nodup)
    (hok : ∀ a ∈ accs, accountOk txs a) (name : String) (amt : Int) :
    ∀ b ∈ applyFirst name amt accs,
      b.balance = b.opening + (contrib b.name txs + (if b.name = name then amt else 0)) := by
  induction accs with
  | nil => intro b hb; simp [applyFirst] at hb
  | cons a rest ih =>
    simp only [accNames, List.map_cons, List.nodup_cons] at hnd
    intro b hb
    by_cases ha : a.name = name
    · rw [applyFirst, if_pos ha] at hb
      rcases List.mem_cons.mp hb with hb | hb
      · subst hb
        subst ha
        have hbal := hok a (List.mem_cons_self a rest)
        unfold accountOk at hbal
        simp only [if_pos rfl]
        show a.balance + amt = a.opening + (contrib a.name txs + amt)
        omega
      · have hbne : ¬ b.name = name := by
          intro he
          exact hnd.1 (by
            rw [ha, ← he]
            exact List.mem_map.mpr ⟨b, hb, rfl⟩)
        have hbok := hok b (List.mem_cons_of_mem a hb)
        unfold accountOk at hbok
        rw [if_neg hbne]
        omega
    · rw [applyFirst, if_neg ha] at hb
      rcases List.mem_cons.mp hb with hb | hb
      · subst hb
        have hbok := hok b (List.mem_cons_self b rest)
        unfold accountOk at hbok
        rw [if_neg ha]
        omega
      · exact ih hnd.2 (fun x hx => hok x (List.mem_cons_of_mem a hx)) b hb

theorem accNames_append (l1 l2 : List Account) :
    accNames (l1 ++ l2) = accNames l1 ++ accNames l2 := by
  simp [accNames]

theorem filter_eq_singleton_of_le_one {l : List Tx} {p : Tx → Bool} {x : Tx}
    (hlen : (l.filter p).length ≤ 1) (hx : x ∈ l) (hpx : p x = true) :
    l.filter p = [x] := by
  have hmem : x ∈ l.filter p := List.mem_filter.mpr ⟨hx, hpx⟩
  match hfp : l.filter p with
  | [] => rw [hfp] at hmem; simp at hmem
  | [y] =>
    rw [hfp] at hmem
    simp only [List.mem_singleton] at hmem
    rw [hmem]
  | y :: z :: rest => rw [hfp] at hlen; simp at hlen

theorem perm_filter_split (l : List Tx) (txId : String) :
    l.Perm (l.filter (fun t => t.id = txId) ++ l.filter (fun t => t.id ≠ txId)) := by
  have h := List.filter_append_perm (fun t => t.id = txId) l
  have he : (fun t : Tx => !(decide (t.id = txId))) = (fun t : Tx => decide (t.id ≠ txId)) := by
    funext t
    simp [decide_not]
  rw [he] at h
  exact h.symm

theorem consistent_addAccount {s : Ledger} (hc : Consistent s)
    (id name : String) (opening : Int)
    (hfresh : strip name ≠ "" →
      strip name ∉ accNames s.accounts ∧ contrib (strip name) s.transactions = 0) :
    Consistent (addAccount s id name opening) := by
  by_cases he : strip name = ""
  · rw [addAccount, if_pos he]; exact hc
  · rcases hfresh he with ⟨hnm, hz⟩
    rw [addAccount, if_neg he]
    constructor
    · show (accNames (s.accounts ++ [⟨id, strip name, opening, opening⟩])).Nodup
      rw [accNames_append]
      rw [List.nodup_append]
      refine ⟨hc.1, List.nodup_singleton _, ?_⟩
      intro x hx
      simp only [accNames, List.map_cons, List.map_nil, List.mem_singleton]
      intro hxe
      exact hnm (hxe ▸ hx)
    · intro a ha
      rcases List.mem_append.mp ha with ha | ha
      · exact hc.2 a ha
      · simp only [List.mem_singleton] at ha
        subst ha
        show opening = opening + contrib (strip name) s.transactions
        omega
  

theorem consistent_deleteAccount {s : Ledger} (hc : Consistent s) (id : String) :
    Consistent (deleteAccount s id) := by
  constructor
  · exact hc.1.sublist ((List.filter_sublist s.accounts).map _)
  · intro a ha
    exact hc.2 a (List.mem_of_mem_filter ha)

theorem consistent_addTx {s : Ledger} (hc : Consistent s)
    (id date account : String) (amount : Int) (memo : String) :
    Consistent (addTx s id date account amount memo) := by
  constructor
  · show (accNames (applyFirst account amount s.accounts)).Nodup
    rw [accNames_applyFirst]
    exact hc.1
  · intro b hb
    have hb2 := applyFirst_ok hc.1 hc.2 account amount b hb
    show b.balance = b.opening + contrib b.name
      (sortTransactions (s.transactions ++ [⟨id, date, account, amount, strip memo⟩]))
    rw [contrib_perm b.name (sortTransactions_perm _), contrib_append, contrib_single]
    have hacc : (⟨id, date, account, amount, strip memo⟩ : Tx).account = account := rfl
    have hamt : (⟨id, date, account, amount, strip memo⟩ : Tx).amount = amount := rfl
    rw [hacc, hamt]
    by_cases hba : b.name = account
    · rw [if_pos hba] at hb2
      rw [if_pos hba.symm]
      omega
    · rw [if_neg hba] at hb2
      rw [if_neg (fun hx => hba hx.symm)]
      omega

theorem consistent_deleteTx {s : Ledger} (hc : Consistent s) (txId : String)
    (hlen : (s.transactions.filter (fun t => t.id = txId)).length ≤ 1) :
    Consistent (deleteTx s txId) := by
  unfold deleteTx
  cases hfind : s.transactions.find? (fun t => t.id = txId) with
  | none => exact hc
  | some target =>
    have htmem : target ∈ s.transactions := List.mem_of_find?_eq_some hfind
    have htid : target.id = txId := by
      have := List.find?_some hfind
      exact of_decide_eq_true this
    have hsplit := perm_filter_split s.transactions txId
    have hsingle : s.transactions.filter (fun t => t.id = txId) = [target] :=
      filter_eq_singleton_of_le_one hlen htmem (decide_eq_true htid)
    rw [hsingle] at hsplit
    constructor
    · show (accNames (applyFirst target.account (-target.amount) s.accounts)).Nodup
      rw [accNames_applyFirst]
      exact hc.1
    · intro b hb
      have hb2 := applyFirst_ok hc.1 hc.2 target.account (-target.amount) b hb
      show b.balance = b.opening + contrib b.name
        (sortTransactions (s.transactions.filter (fun t => t.id ≠ txId)))
      rw [contrib_perm b.name (sortTransactions_perm _)]
      have hcsplit : contrib b.name s.transactions =
          contrib b.name [target] + contrib b.name (s.transactions.filter (fun t => t.id ≠ txId)) := by
        rw [← contrib_append]
        exact contrib_perm b.name hsplit
      rw [contrib_single] at hcsplit
      by_cases hba : b.name = target.account
      · rw [if_pos hba] at hb2
        rw [if_pos hba.symm] at hcsplit
        omega
      · rw [if_neg hba] at hb2
        rw [if_neg (fun hx => hba hx.symm)] at hcsplit
        omega

theorem batchStep_accNames (td : Nat) (mStr : String) (mkId : Nat → String)
    (st : BatchState) (fc : FixedCost) :
    accNames (batchStep td mStr mkId st fc).accs = accNames st.accs := by
  unfold batchStep
  cases stepOutcome st.accs st.txs td mStr fc with
  | added => exact accNames_applyLast _ _ _
  | future => rfl
  | dup => rfl
  | noAccount => rfl

theorem batchStep_ok {td : Nat} {mStr : String} {mkId : Nat → String}
    {st : BatchState} (fc : FixedCost)
    (hnd : (accNames st.accs).Nodup)
    (hok : ∀ a ∈ st.accs, accountOk st.txs a) :
    ∀ a ∈ (batchStep td mStr mkId st fc).accs,
      accountOk (batchStep td mStr mkId st fc).txs a := by
  unfold batchStep
  cases stepOutcome st.accs st.txs td mStr fc with
  | future => exact hok
  | dup => exact hok
  | noAccount => exact hok
  | added =>
    intro b hb
    show accountOk (st.txs ++ [⟨mkId st.counts.added, targetDate mStr fc.day,
      strip fc.account, fc.amount, composedMemo fc⟩]) b
    have hb1 : b ∈ applyFirst (strip fc.account) fc.amount st.accs := by
      rw [← applyLast_eq_applyFirst hnd]
      exact hb
    have hb2 := applyFirst_ok hnd hok (strip fc.account) fc.amount b hb1
    unfold accountOk
    rw [contrib_append, contrib_single]
    have hacc : (⟨mkId st.counts.added, targetDate mStr fc.day, strip fc.account,
        fc.amount, composedMemo fc⟩ : Tx).account = strip fc.account := rfl
    have hamt : (⟨mkId st.counts.added, targetDate mStr fc.day, strip fc.account,
        fc.amount, composedMemo fc⟩ : Tx).amount = fc.amount := rfl
    rw [hacc, hamt]
    by_cases hba : b.name = strip fc.account
    · rw [if_pos hba] at hb2
      rw [if_pos hba.symm]
      omega
    · rw [if_neg hba] at hb2
      rw [if_neg (fun hx => hba hx.symm)]
      omega

theorem batchFold_accNames (td : Nat) (mStr : String) (mkId : Nat → String) :
    ∀ (fcs : List FixedCost) (st : BatchState),
      accNames ((fcs.foldl (batchStep td mStr mkId) st).accs) = accNames st.accs := by
  intro fcs
  induction fcs with
  | nil => intro st; rfl
  | cons fc rest ih =>
    intro st
    rw [List.foldl_cons, ih, batchStep_accNames]

theorem batchFold_ok (td : Nat) (mStr : String) (mkId : Nat → String) :
    ∀ (fcs : List FixedCost) (st : BatchState),
      (accNames st.accs).Nodup →
      (∀ a ∈ st.accs, accountOk st.txs a) →
      ∀ a ∈ (fcs.foldl (batchStep td mStr mkId) st).accs,
        accountOk ((fcs.foldl (batchStep td mStr mkId) st).txs) a := by
  intro fcs
  induction fcs with
  | nil => intro st _ hok; exact hok
  | cons fc rest ih =>
    intro st hnd hok
    rw [List.foldl_cons]
    refine ih _ ?_ (batchStep_ok fc hnd hok)
    rw [batchStep_accNames]
    exact hnd

theorem consistent_runBatch {s : Ledger} (hc : Consistent s)
    (y m todayDay : Nat) (mkId : Nat → String) :
    Consistent (runBatch s y m todayDay mkId).1 := by
  unfold runBatch
  constructor
  · show (accNames ((s.fixedCosts.foldl (batchStep todayDay (monthString y m) mkId)
      ⟨s.accounts, s.transactions, ⟨0, 0, 0, 0⟩⟩).accs)).Nodup
    rw [batchFold_accNames]
    exact hc.1
  · intro a ha
    have hok := batchFold_ok todayDay (monthString y m) mkId s.fixedCosts
      ⟨s.accounts, s.transactions, ⟨0, 0, 0, 0⟩⟩ hc.1 hc.2 a ha
    unfold accountOk at hok ⊢
    rw [contrib_perm a.name (sortTransactions_perm _)]
    exact hok

theorem consistent_applyOp {s : Ledger} {op : Op}
    (hc : Consistent s) (hok : opOK s op) : Consistent (applyOp s op) := by
  cases op with
  | addAccount id name opening => exact consistent_addAccount hc id name opening hok
  | deleteAccount id => exact consistent_deleteAccount hc id
  | addTx id date account amount memo => exact consistent_addTx hc id date account amount memo
  | deleteTx id => exact consistent_deleteTx hc id hok
  | addFixed id name account amount memo day =>
    show Consistent ((addFixed s id name account amount memo day).getD s)
    unfold addFixed
    by_cases he : strip name = ""
    · rw [if_pos he]; exact hc
    · rw [if_neg he]; exact hc
  | deleteFixed id => exact hc
  | runBatch y m todayDay mkId => exact consistent_runBatch hc y m todayDay mkId

theorem consistent_applyOps {s : Ledger} {ops : List Op}
    (hc : Consistent s) (hok : opsOK s ops) : Consistent (applyOps s ops) := by
  induction ops generalizing s with
  | nil => exact hc
  | cons op rest ih =>
    exact ih (consistent_applyOp hc hok.1) hok.2

/-- C1 (counterexample): starting from the consistent empty state, a
transaction referencing the not-yet-existing account name Ghost is
recorded; adding an account named Ghost afterwards leaves the new
account's balance at its opening value although a matching transaction
exists, so the balance invariant does not hold after that mutation. -/
theorem C1_counterexample :
    Consistent ⟨[], [], []⟩ ∧
    ¬ balInvariant (applyOps ⟨[], [], []⟩
      [Op.addTx "t1" "2024-05-01" "Ghost" (-500) "",
       Op.addAccount "a1" "Ghost" 0]) := by
  decide

/-- C1 (amended): from a consistent state (pairwise-distinct account
names, balances in agreement with the invariant), any sequence of
well-formed mutations — add or delete transaction, delete account,
recurring batch without restriction, add account only when its stripped
name is fresh and referenced by no existing transaction, delete
transaction only for a non-duplicated id — leaves the state consistent:
every account's balance equals its balance at creation plus the summed
amounts of the transactions currently referencing its name. -/
theorem C1_balance_invariant (s : Ledger) (ops : List Op)
    (hc : Consistent s) (hok : opsOK s ops) :
    Consistent (applyOps s ops) :=
  consistent_applyOps hc hok

/-- C1 witness: a concrete five-operation run (add account, add
template, run the batch, add and delete a manual transaction) keeps the
state consistent. -/
theorem C1_balance_invariant_witness :
    Consistent (applyOps ⟨[], [], []⟩
      [Op.addAccount "a1" "SMBC" 1000,
       Op.addFixed "f1" "家賃" "SMBC" (-700) "" 25,
       Op.runBatch 2024 5 28 (fun _ => "g1"),
       Op.addTx "t1" "2024-05-01" "SMBC" 300 "",
       Op.deleteTx "t1"]) :=
  C1_balance_invariant _ _ (by decide) (by decide)

theorem any_congr_of_perm {l1 l2 : List Tx} (p : Tx → Bool) (h : l1.Perm l2) :
    l1.any p = l2.any p := by
  cases h1 : l1.any p
  · cases h2 : l2.any p
    · rfl
    · rcases List.any_eq_true.mp h2 with ⟨x, hx, hpx⟩
      have h3 : l1.any p = true := List.any_eq_true.mpr ⟨x, h.mem_iff.mpr hx, hpx⟩
      rw [h1] at h3
      exact h3
  · rcases List.any_eq_true.mp h1 with ⟨x, hx, hpx⟩
    exact (List.any_eq_true.mpr ⟨x, h.mem_iff.mp hx, hpx⟩).symm

/-- The transaction generated from a template passes the template's own
duplicate test: the account is already stripped and the composed memo
strips to itself. -/
theorem isDupOf_generated (mStr : String) (fc : FixedCost) (id : String) :
    isDupOf mStr fc ⟨id, targetDate mStr fc.day, strip fc.account, fc.amount,
      composedMemo fc⟩ = true := by
  unfold isDupOf dupMatches
  simp [strip_idem, strip_composedMemo]

/-- Along the batch loop the transaction list only grows. -/
theorem batchStep_txs_mono (td : Nat) (mStr : String) (mkId : Nat → String)
    (st : BatchState) (fc : FixedCost) {t : Tx} (ht : t ∈ st.txs) :
    t ∈ (batchStep td mStr mkId st fc).txs := by
  unfold batchStep
  cases stepOutcome st.accs st.txs td mStr fc with
  | future => exact ht
  | dup => exact ht
  | noAccount => exact ht
  | added => exact List.mem_append_left _ ht

theorem batchFold_txs_mono (td : Nat) (mStr : String) (mkId : Nat → String) :
    ∀ (fcs : List FixedCost) (st : BatchState) {t : Tx}, t ∈ st.txs →
      t ∈ (fcs.foldl (batchStep td mStr mkId) st).txs := by
  intro fcs
  induction fcs with
  | nil => intro st t ht; exact ht
  | cons fc rest ih =>
    intro st t ht
    exact ih _ (batchStep_txs_mono td mStr mkId st fc ht)

/-- After the batch loop has run, every template that is due has a
duplicate among the resulting transactions, unless its (stripped)
account name is absent from the account list. -/
theorem batchFold_covers (td : Nat) (mStr : String) (mkId : Nat → String) :
    ∀ (fcs : List FixedCost) (st : BatchState), ∀ fc ∈ fcs,
      td < fc.day ∨
      ((fcs.foldl (batchStep td mStr mkId) st).txs).any (isDupOf mStr fc) = true ∨
      (accNames st.accs).contains (strip fc.account) = false := by
  intro fcs
  induction fcs with
  | nil => intro st fc hfc; simp at hfc
  | cons fc0 rest ih =>
    intro st fc hfc
    rw [List.foldl_cons]
    rcases List.mem_cons.mp hfc with hfc | hfc
    · subst hfc
      by_cases hf : td < fc.day
      · exact Or.inl hf
      · by_cases hd : st.txs.any (isDupOf mStr fc) = true
        · rcases List.any_eq_true.mp hd with ⟨t, ht, hpt⟩
          refine Or.inr (Or.inl (List.any_eq_true.mpr ⟨t, ?_, hpt⟩))
          exact batchFold_txs_mono td mStr mkId rest _
            (batchStep_txs_mono td mStr mkId st fc ht)
        · by_cases ha : (accNames st.accs).contains (strip fc.account) = true
          · -- the template is added; its generated transaction is its duplicate
            have hso : stepOutcome st.accs st.txs td mStr fc = .added := by
              unfold stepOutcome
              rw [if_neg hf, if_neg (by simpa using hd), if_pos ha]
            have hstep : (batchStep td mStr mkId st fc).txs =
                st.txs ++ [⟨mkId st.counts.added, targetDate mStr fc.day,
                  strip fc.account, fc.amount, composedMemo fc⟩] := by
              unfold batchStep
              rw [hso]
            refine Or.inr (Or.inl (List.any_eq_true.mpr
              ⟨⟨mkId st.counts.added, targetDate mStr fc.day, strip fc.account,
                fc.amount, composedMemo fc⟩, ?_, isDupOf_generated mStr fc _⟩))
            refine batchFold_txs_mono td mStr mkId rest _ ?_
            rw [hstep]
            exact List.mem_append_right _ (List.mem_singleton.mpr rfl)
          · exact Or.inr (Or.inr (Bool.eq_false_iff.mpr ha))
    · have hres := ih (batchStep td mStr mkId st fc0) fc hfc
      rcases hres with h | h | h
      · exact Or.inl h
      · exact Or.inr (Or.inl h)
      · refine Or.inr (Or.inr ?_)
        rw [batchStep_accNames] at h
        exact h

/-- If every template is already either not due, duplicated in the
current transactions, or without account, the batch loop changes neither
accounts nor transactions and adds nothing. -/
theorem batchFold_noop (td : Nat) (mStr : String) (mkId : Nat → String) :
    ∀ (fcs : List FixedCost) (st : BatchState),
      (∀ fc ∈ fcs,
        td < fc.day ∨ st.txs.any (isDupOf mStr fc) = true ∨
        (accNames st.accs).contains (strip fc.account) = false) →
      (fcs.foldl (batchStep td mStr mkId) st).accs = st.accs ∧
      (fcs.foldl (batchStep td mStr mkId) st).txs = st.txs ∧
      (fcs.foldl (batchStep td mStr mkId) st).counts.added = st.counts.added := by
  intro fcs
  induction fcs with
  | nil => intro st _; exact ⟨rfl, rfl, rfl⟩
  | cons fc rest ih =>
    intro st hcond
    rw [List.foldl_cons]
    have hskip : (batchStep td mStr mkId st fc).accs = st.accs ∧
        (batchStep td mStr mkId st fc).txs = st.txs ∧
        (batchStep td mStr mkId st fc).counts.added = st.counts.added := by
      rcases hcond fc (List.mem_cons_self fc rest) with h | h | h
      · have hso : stepOutcome st.accs st.txs td mStr fc = .future := by
          unfold stepOutcome
          rw [if_pos h]
        unfold batchStep
        rw [hso]
        exact ⟨rfl, rfl, rfl⟩
      · by_cases hf : td < fc.day
        · have hso : stepOutcome st.accs st.txs td mStr fc = .future := by
            unfold stepOutcome
            rw [if_pos hf]
          unfold batchStep
          rw [hso]
          exact ⟨rfl, rfl, rfl⟩
        · have hso : stepOutcome st.accs st.txs td mStr fc = .dup := by
            unfold stepOutcome
            rw [if_neg hf, if_pos h]
          unfold batchStep
          rw [hso]
          exact ⟨rfl, rfl, rfl⟩
      · by_cases hf : td < fc.day
        · have hso : stepOutcome st.accs st.txs td mStr fc = .future := by
            unfold stepOutcome
            rw [if_pos hf]
          unfold batchStep
          rw [hso]
          exact ⟨rfl, rfl, rfl⟩
        · by_cases hd : st.txs.any (isDupOf mStr fc) = true
          · have hso : stepOutcome st.accs st.txs td mStr fc = .dup := by
              unfold stepOutcome
              rw [if_neg hf, if_pos hd]
            unfold batchStep
            rw [hso]
            exact ⟨rfl, rfl, rfl⟩
          · have hso : stepOutcome st.accs st.txs td mStr fc = .noAccount := by
              unfold stepOutcome
              rw [if_neg hf, if_neg (by simpa using hd),
                if_neg (fun hcont => Bool.false_ne_true (h ▸ hcont))]
            unfold batchStep
            rw [hso]
            exact ⟨rfl, rfl, rfl⟩
    have hcond2 : ∀ fc2 ∈ rest,
        td < fc2.day ∨ (batchStep td mStr mkId st fc).txs.any (isDupOf mStr fc2) = true ∨
        (accNames (batchStep td mStr mkId st fc).accs).contains (strip fc2.account) = false := by
      intro fc2 hfc2
      rw [hskip.1, hskip.2.1]
      exact hcond fc2 (List.mem_cons_of_mem fc hfc2)
    rcases ih (batchStep td mStr mkId st fc) hcond2 with ⟨h1, h2, h3⟩
    exact ⟨h1.trans hskip.1, h2.trans hskip.2.1, h3.trans hskip.2.2⟩

theorem runBatch_fst (s : Ledger) (y m todayDay : Nat) (mkId : Nat → String) :
    (runBatch s y m todayDay mkId).1 =
    { s with accounts := (batchFoldOf s y m todayDay mkId).accs,
             transactions := sortTransactions (batchFoldOf s y m todayDay mkId).txs } := rfl

theorem runBatch_snd (s : Ledger) (y m todayDay : Nat) (mkId : Nat → String) :
    (runBatch s y m todayDay mkId).2 = (batchFoldOf s y m todayDay mkId).counts := rfl

/-- C2: running the batch twice for the same current date, with no
other mutation between the runs, adds nothing the second time and
returns the very same state (in particular the identical transaction
collection). -/
theorem C2_batch_idempotent (s : Ledger) (y m td : Nat) (mkId mkId2 : Nat → String) :
    (runBatch (runBatch s y m td mkId).1 y m td mkId2).2.added = 0 ∧
    (runBatch (runBatch s y m td mkId).1 y m td mkId2).1 = (runBatch s y m td mkId).1 := by
  have hs2fold : batchFoldOf (runBatch s y m td mkId).1 y m td mkId2 =
      s.fixedCosts.foldl (batchStep td (monthString y m) mkId2)
        ⟨(batchFoldOf s y m td mkId).accs,
         sortTransactions (batchFoldOf s y m td mkId).txs, ⟨0, 0, 0, 0⟩⟩ := rfl
  have hcond : ∀ fc ∈ s.fixedCosts,
      td < fc.day ∨
      (sortTransactions (batchFoldOf s y m td mkId).txs).any
        (isDupOf (monthString y m) fc) = true ∨
      (accNames (batchFoldOf s y m td mkId).accs).contains (strip fc.account) = false := by
    intro fc hfc
    rcases batchFold_covers td (monthString y m) mkId s.fixedCosts
        ⟨s.accounts, s.transactions, ⟨0, 0, 0, 0⟩⟩ fc hfc with h | h | h
    · exact Or.inl h
    · refine Or.inr (Or.inl ?_)
      rw [any_congr_of_perm (isDupOf (monthString y m) fc) (sortTransactions_perm _)]
      exact h
    · refine Or.inr (Or.inr ?_)
      show (accNames (batchFoldOf s y m td mkId).accs).contains (strip fc.account) = false
      unfold batchFoldOf
      rw [batchFold_accNames]
      exact h
  rcases batchFold_noop td (monthString y m) mkId2 s.fixedCosts
      ⟨(batchFoldOf s y m td mkId).accs,
       sortTransactions (batchFoldOf s y m td mkId).txs, ⟨0, 0, 0, 0⟩⟩
      (fun fc hfc => hcond fc hfc) with ⟨h1, h2, h3⟩
  constructor
  · show (batchFoldOf (runBatch s y m td mkId).1 y m td mkId2).counts.added = 0
    rw [hs2fold]
    exact h3
  · show { (runBatch s y m td mkId).1 with
        accounts := (batchFoldOf (runBatch s y m td mkId).1 y m td mkId2).accs,
        transactions :=
          sortTransactions (batchFoldOf (runBatch s y m td mkId).1 y m td mkId2).txs }
      = (runBatch s y m td mkId).1
    rw [hs2fold, h1, h2, sortTransactions_idem]
    rfl

theorem batchStep_counts (td : Nat) (mStr : String) (mkId : Nat → String)
    (st : BatchState) (fc : FixedCost) :
    ((batchStep td mStr mkId st fc).counts.added +
      (batchStep td mStr mkId st fc).counts.skippedFuture +
      (batchStep td mStr mkId st fc).counts.skippedDup +
      (batchStep td mStr mkId st fc).counts.skippedNoAccount
      = st.counts.added + st.counts.skippedFuture + st.counts.skippedDup +
        st.counts.skippedNoAccount + 1) ∧
    ((batchStep td mStr mkId st fc).txs.length + st.counts.added
      = st.txs.length + (batchStep td mStr mkId st fc).counts.added) := by
  unfold batchStep
  cases stepOutcome st.accs st.txs td mStr fc <;> constructor <;> simp <;> omega

theorem batchFold_counts (td : Nat) (mStr : String) (mkId : Nat → String) :
    ∀ (fcs : List FixedCost) (st : BatchState),
      ((fcs.foldl (batchStep td mStr mkId) st).counts.added +
        (fcs.foldl (batchStep td mStr mkId) st).counts.skippedFuture +
        (fcs.foldl (batchStep td mStr mkId) st).counts.skippedDup +
        (fcs.foldl (batchStep td mStr mkId) st).counts.skippedNoAccount
        = st.counts.added + st.counts.skippedFuture + st.counts.skippedDup +
          st.counts.skippedNoAccount + fcs.length) ∧
      ((fcs.foldl (batchStep td mStr mkId) st).txs.length + st.counts.added
        = st.txs.length + (fcs.foldl (batchStep td mStr mkId) st).counts.added) := by
  intro fcs
  induction fcs with
  | nil => intro st; rw [List.foldl_nil]; exact ⟨by simp, by omega⟩
  | cons fc rest ih =>
    intro st
    rw [List.foldl_cons]
    rcases ih (batchStep td mStr mkId st fc) with ⟨h1, h2⟩
    rcases batchStep_counts td mStr mkId st fc with ⟨h3, h4⟩
    constructor
    · rw [h1, h3]
      simp [List.length_cons]
      omega
    · omega

/-- C9: each template of a batch run is classified exactly once, so the
four counters sum to the number of templates, and the number of
transactions the run appends equals the added count. -/
theorem C9_partition (s : Ledger) (y m td : Nat) (mkId : Nat → String) :
    ((runBatch s y m td mkId).2.added + (runBatch s y m td mkId).2.skippedFuture +
      (runBatch s y m td mkId).2.skippedDup +
      (runBatch s y m td mkId).2.skippedNoAccount = s.fixedCosts.length) ∧
    ((runBatch s y m td mkId).1.transactions.length =
      s.transactions.length + (runBatch s y m td mkId).2.added) := by
  rcases batchFold_counts td (monthString y m) mkId s.fixedCosts
      ⟨s.accounts, s.transactions, ⟨0, 0, 0, 0⟩⟩ with ⟨h1, h2⟩
  constructor
  · rw [runBatch_snd]
    exact h1.trans (by simp)
  · rw [runBatch_snd, runBatch_fst]
    show (sortTransactions (batchFoldOf s y m td mkId).txs).length =
      s.transactions.length + (batchFoldOf s y m td mkId).counts.added
    rw [(sortTransactions_perm _).length_eq]
    have h2x : (batchFoldOf s y m td mkId).txs.length + 0 =
        s.transactions.length + (batchFoldOf s y m td mkId).counts.added := h2
    omega

theorem daysInMonth_le (y m : Nat) : daysInMonth y m ≤ 31 := by
  unfold daysInMonth
  split_ifs <;> omega

theorem parseDateSafe_bounds {s : String} {y m d : Nat}
    (h : parseDateSafe s = some (y, m, d)) :
    1 ≤ y ∧ y ≤ 9999 ∧ 1 ≤ m ∧ m ≤ 12 ∧ 1 ≤ d ∧ d ≤ daysInMonth y m := by
  unfold parseDateSafe at h
  cases hp : parseDate10 (s.data.take 10) with
  | none => rw [hp] at h; cases h
  | some p =>
    obtain ⟨y0, m0, d0⟩ := p
    rw [hp] at h
    dsimp only at h
    split_ifs at h with hv
    cases h
    exact hv

theorem specLe_iff_txLe (t u : Tx) : specLe t u ↔ txLe t u := by
  unfold specLe txLe txKey1 txKey2
  cases hpt : parseDateSafe t.date with
  | none =>
    cases hpu : parseDateSafe u.date with
    | none =>
      dsimp only [specLeAux]
      simp
    | some q =>
      dsimp only [specLeAux]
      simp
  | some p =>
    cases hpu : parseDateSafe u.date with
    | none =>
      dsimp only [specLeAux]
      simp
    | some q =>
      obtain ⟨y1, m1, d1⟩ := p
      obtain ⟨y2, m2, d2⟩ := q
      have hb1 := parseDateSafe_bounds hpt
      have hb2 := parseDateSafe_bounds hpu
      have h31a := daysInMonth_le y1 m1
      have h31b := daysInMonth_le y2 m2
      dsimp only [specLeAux, dateEnc]
      constructor
      · rintro (hlt | ⟨he1, he2, he3, hid⟩)
        · refine Or.inr ⟨rfl, Or.inl (by omega)⟩
        · subst he1; subst he2; subst he3
          exact Or.inr ⟨rfl, Or.inr ⟨rfl, hid⟩⟩
      · rintro (h0 | ⟨-, henc | ⟨henc, hid⟩⟩)
        · exact absurd h0 (lt_irrefl 0)
        · exact Or.inl (by omega)
        · have he1 : y1 = y2 := by omega
          subst he1
          have he2 : m1 = m2 := by omega
          subst he2
          have he3 : d1 = d2 := by omega
          subst he3
          exact Or.inr ⟨rfl, rfl, rfl, hid⟩

/-- C3: the sort returns a permutation of its input, orders it so that
every adjacent-or-later pair respects the policy (ascending parsed
date, unparsable dates after all parseable ones, ties on equal or
equally-unparsable dates broken by ascending id), and leaves an
already-sorted collection unchanged. -/
theorem C3_ordering (l : List Tx) :
    (sortTransactions l).Perm l ∧
    (sortTransactions l).Pairwise specLe ∧
    (l.Pairwise specLe → sortTransactions l = l) := by
  refine ⟨sortTransactions_perm l, ?_, ?_⟩
  · exact (sortTransactions_sorted l).imp (fun h => (specLe_iff_txLe _ _).mpr h)
  · intro h
    exact sortTransactions_of_sorted (h.imp (fun h2 => (specLe_iff_txLe _ _).mp h2))

/-- C3 witness: on a concrete already-sorted collection (two dated
transactions tied on the date and ordered by id, one unparsable date at
the end) the sort is the identity. -/
theorem C3_ordering_witness :
    sortTransactions
      [⟨"tx_a", "2024-05-01", "A", 100, ""⟩,
       ⟨"tx_b", "2024-05-01", "B", -200, ""⟩,
       ⟨"tx_c", "corrupt", "A", 300, ""⟩]
      = [⟨"tx_a", "2024-05-01", "A", 100, ""⟩,
         ⟨"tx_b", "2024-05-01", "B", -200, ""⟩,
         ⟨"tx_c", "corrupt", "A", 300, ""⟩] :=
  (C3_ordering _).2.2 (by decide)

theorem applyFirst_decompose (name : String) (amt : Int)
    (pre post : List Account) (a : Account)
    (ha : a.name = name) (hpre : ∀ b ∈ pre, b.name ≠ name) :
    applyFirst name amt (pre ++ a :: post) =
      pre ++ { a with balance := a.balance + amt } :: post := by
  induction pre with
  | nil =>
    rw [List.nil_append, applyFirst, if_pos ha, List.nil_append]
  | cons b rest ih =>
    rw [List.cons_append, applyFirst,
      if_neg (hpre b (List.mem_cons_self b rest)),
      ih (fun x hx => hpre x (List.mem_cons_of_mem b hx)), List.cons_append]

/-- C4: the add-transaction handler run with an account name matching no
account still records the transaction, leaves the account list (hence
every balance) untouched and signals no error; with a matching name the
first matching account's balance is increased by the amount. -/
theorem C4_manual_entry (s : Ledger) (id date name : String) (amount : Int)
    (memo : String) :
    ((∀ a ∈ s.accounts, a.name ≠ name) →
      (addTx s id date name amount memo).accounts = s.accounts ∧
      (⟨id, date, name, amount, strip memo⟩ : Tx) ∈
        (addTx s id date name amount memo).transactions ∧
      ((addTx s id date name amount memo).transactions).Perm
        (s.transactions ++ [⟨id, date, name, amount, strip memo⟩])) ∧
    (∀ pre a post, s.accounts = pre ++ a :: post → a.name = name →
      (∀ b ∈ pre, b.name ≠ name) →
      (addTx s id date name amount memo).accounts =
        pre ++ { a with balance := a.balance + amount } :: post) := by
  constructor
  · intro hnone
    refine ⟨?_, ?_, sortTransactions_perm _⟩
    · show applyFirst name amount s.accounts = s.accounts
      refine applyFirst_of_not_mem amount ?_
      intro hmem
      rcases List.mem_map.mp hmem with ⟨a, ha, he⟩
      exact hnone a ha he
    · show _ ∈ sortTransactions (s.transactions ++ [_])
      rw [(sortTransactions_perm _).mem_iff]
      exact List.mem_append_right _ (List.mem_singleton.mpr rfl)
  · intro pre a post hsplit ha hpre
    show applyFirst name amount s.accounts = _
    rw [hsplit]
    exact applyFirst_decompose name amount pre post a ha hpre

/-- C4 witness: with no accounts at all, the spec's example transaction
to the nonexistent account Ghost is recorded and nothing else changes;
and with a matching account SMBC, the balance moves by the amount. -/
theorem C4_manual_entry_witness :
    ((addTx ⟨[], [], []⟩ "t1" "2024-05-01" "Ghost" (-500) "").accounts = [] ∧
      (⟨"t1", "2024-05-01", "Ghost", -500, ""⟩ : Tx) ∈
        (addTx ⟨[], [], []⟩ "t1" "2024-05-01" "Ghost" (-500) "").transactions ∧
      ((addTx ⟨[], [], []⟩ "t1" "2024-05-01" "Ghost" (-500) "").transactions).Perm
        ([] ++ [⟨"t1", "2024-05-01", "Ghost", -500, ""⟩])) ∧
    (addTx ⟨[⟨"a1", "SMBC", 100, 100⟩], [], []⟩ "t2" "2024-05-02" "SMBC" 40 "").accounts
      = [] ++ ⟨"a1", "SMBC", 140, 100⟩ :: [] := by
  constructor
  · exact (C4_manual_entry ⟨[], [], []⟩ "t1" "2024-05-01" "Ghost" (-500) "").1 (by decide)
  · exact (C4_manual_entry ⟨[⟨"a1", "SMBC", 100, 100⟩], [], []⟩
      "t2" "2024-05-02" "SMBC" 40 "").2 [] ⟨"a1", "SMBC", 100, 100⟩ [] rfl rfl
      (by intro b hb; cases hb)

theorem find?_eq_of_unique {l : List Tx} {p : Tx → Bool} {a : Tx}
    (hmem : a ∈ l) (hpa : p a = true)
    (huniq : ∀ x ∈ l, p x = true → x = a) : l.find? p = some a := by
  induction l with
  | nil => cases hmem
  | cons b rest ih =>
    by_cases hpb : p b = true
    · rw [List.find?_cons_of_pos _ hpb]
      rw [huniq b (List.mem_cons_self b rest) hpb]
    · rw [List.find?_cons_of_neg _ hpb]
      rcases List.mem_cons.mp hmem with he | hmem2
      · subst he; exact absurd hpa hpb
      · exact ih hmem2 (fun x hx hpx => huniq x (List.mem_cons_of_mem b hx) hpx)

theorem applyFirst_cancel (name : String) (amt : Int) :
    ∀ accs : List Account, applyFirst name (-amt) (applyFirst name amt accs) = accs := by
  intro accs
  induction accs with
  | nil => rfl
  | cons a rest ih =>
    by_cases ha : a.name = name
    · rw [applyFirst, if_pos ha, applyFirst, if_pos ha]
      have he : a.balance + amt + -amt = a.balance := by ring
      rw [he]
    · rw [applyFirst, if_neg ha, applyFirst, if_neg ha, ih]

/-- C7: adding a transaction with a fresh id and then deleting that id
restores the account collection exactly, whatever other transactions
exist; in particular the referenced account's balance returns to its
pre-add value. -/
theorem C7_delete_reverses (s : Ledger) (id date name : String) (amount : Int)
    (memo : String) (hfresh : ∀ t ∈ s.transactions, t.id ≠ id) :
    (deleteTx (addTx s id date name amount memo) id).accounts = s.accounts := by
  have hfind : ((addTx s id date name amount memo).transactions).find?
      (fun t => t.id = id) = some ⟨id, date, name, amount, strip memo⟩ := by
    refine find?_eq_of_unique ?_ (by simp) ?_
    · show _ ∈ sortTransactions (s.transactions ++ [_])
      rw [(sortTransactions_perm _).mem_iff]
      exact List.mem_append_right _ (List.mem_singleton.mpr rfl)
    · intro x hx hpx
      have hx2 : x ∈ s.transactions ++ [(⟨id, date, name, amount, strip memo⟩ : Tx)] := by
        rw [← (sortTransactions_perm _).mem_iff]
        exact hx
      rcases List.mem_append.mp hx2 with hx3 | hx3
      · exact absurd (of_decide_eq_true hpx) (hfresh x hx3)
      · exact List.mem_singleton.mp hx3
  unfold deleteTx
  rw [hfind]
  show applyFirst name (-amount) (applyFirst name amount s.accounts) = s.accounts
  exact applyFirst_cancel name amount s.accounts

/-- C7 witness: on a two-account ledger with an unrelated transaction on
the same account, adding and deleting a fresh transaction restores the
accounts. -/
theorem C7_delete_reverses_witness :
    (deleteTx (addTx ⟨[⟨"a1", "A", 70, 100⟩, ⟨"a2", "B", 5, 5⟩],
        [⟨"t0", "2024-04-01", "A", -30, ""⟩], []⟩
      "t9" "2024-05-02" "A" (-500) "x") "t9").accounts
      = [⟨"a1", "A", 70, 100⟩, ⟨"a2", "B", 5, 5⟩] :=
  C7_delete_reverses ⟨[⟨"a1", "A", 70, 100⟩, ⟨"a2", "B", 5, 5⟩],
      [⟨"t0", "2024-04-01", "A", -30, ""⟩], []⟩
    "t9" "2024-05-02" "A" (-500) "x" (by decide)

/-- C5 (counterexample): an account whose raw name is padded with
whitespace trims to the same string as the template's trimmed account,
yet the batch classifies the template as skipped_no_account and
generates nothing, because the check compares against the raw account
names (the keys of `acc_map`), which are not trimmed. -/
theorem C5_counterexample :
    (∃ a ∈ ([⟨"a1", " A ", 0, 0⟩] : List Account),
      strip a.name = strip ((⟨"f1", "T", "A", -100, "", 1⟩ : FixedCost).account)) ∧
    (runBatch ⟨[⟨"a1", " A ", 0, 0⟩], [], [⟨"f1", "T", "A", -100, "", 1⟩]⟩
      2024 5 15 (fun _ => "g")).2.skippedNoAccount = 1 ∧
    (runBatch ⟨[⟨"a1", " A ", 0, 0⟩], [], [⟨"f1", "T", "A", -100, "", 1⟩]⟩
      2024 5 15 (fun _ => "g")).1.transactions = [] ∧
    (runBatch ⟨[⟨"a1", " A ", 0, 0⟩], [], [⟨"f1", "T", "A", -100, "", 1⟩]⟩
      2024 5 15 (fun _ => "g")).1.accounts = [⟨"a1", " A ", 0, 0⟩] := by
  decide

/-- C5 (amended): for a template that is due and has no duplicate, the
batch classifies it skipped_no_account — generating no transaction and
changing no account — exactly when no account's raw (untrimmed) name
equals the template's account field after trimming. -/
theorem C5_no_account_check (st : BatchState) (td : Nat) (mStr : String)
    (mkId : Nat → String) (fc : FixedCost)
    (hdue : fc.day ≤ td)
    (hnodup : st.txs.any (isDupOf mStr fc) = false) :
    (stepOutcome st.accs st.txs td mStr fc = .noAccount ↔
      strip fc.account ∉ accNames st.accs) ∧
    (strip fc.account ∉ accNames st.accs →
      (batchStep td mStr mkId st fc).txs = st.txs ∧
      (batchStep td mStr mkId st fc).accs = st.accs ∧
      (batchStep td mStr mkId st fc).counts.skippedNoAccount
        = st.counts.skippedNoAccount + 1) := by
  have hso : stepOutcome st.accs st.txs td mStr fc =
      (if (accNames st.accs).contains (strip fc.account) then .added else .noAccount) := by
    unfold stepOutcome
    rw [if_neg (by omega), if_neg (by simp [hnodup])]
  constructor
  · rw [hso]
    by_cases hc : (accNames st.accs).contains (strip fc.account) = true
    · rw [if_pos hc]
      constructor
      · intro h; cases h
      · intro h
        exact absurd (List.elem_iff.mp hc) h
    · rw [if_neg hc]
      simp only [true_iff]
      intro hmem
      exact hc (List.elem_iff.mpr hmem)
  · intro hno
    have hcont : (accNames st.accs).contains (strip fc.account) = false :=
      Bool.eq_false_iff.mpr (fun hc => hno (List.elem_iff.mp hc))
    have hso2 : stepOutcome st.accs st.txs td mStr fc = .noAccount := by
      rw [hso, hcont]
      rfl
    unfold batchStep
    rw [hso2]
    exact ⟨rfl, rfl, rfl⟩

/-- C5 witness: a due, non-duplicated template whose trimmed account
name is absent from the raw account names is classified
skipped_no_account, with no transaction and no balance change. -/
theorem C5_no_account_check_witness :
    (stepOutcome [⟨"a1", " A ", 0, 0⟩] [] 15 "2024-05" ⟨"f1", "T", "A", -100, "", 1⟩
        = .noAccount ↔
      strip "A" ∉ accNames [⟨"a1", " A ", 0, 0⟩]) ∧
    ((batchStep 15 "2024-05" (fun _ => "g")
        ⟨[⟨"a1", " A ", 0, 0⟩], [], ⟨0, 0, 0, 0⟩⟩ ⟨"f1", "T", "A", -100, "", 1⟩).txs = [] ∧
      (batchStep 15 "2024-05" (fun _ => "g")
        ⟨[⟨"a1", " A ", 0, 0⟩], [], ⟨0, 0, 0, 0⟩⟩ ⟨"f1", "T", "A", -100, "", 1⟩).accs
        = [⟨"a1", " A ", 0, 0⟩] ∧
      (batchStep 15 "2024-05" (fun _ => "g")
        ⟨[⟨"a1", " A ", 0, 0⟩], [], ⟨0, 0, 0, 0⟩⟩ ⟨"f1", "T", "A", -100, "", 1⟩).counts.skippedNoAccount
        = 0 + 1) :=
  ⟨(C5_no_account_check ⟨[⟨"a1", " A ", 0, 0⟩], [], ⟨0, 0, 0, 0⟩⟩ 15 "2024-05"
      (fun _ => "g") ⟨"f1", "T", "A", -100, "", 1⟩ (by decide) (by decide)).1,
   (C5_no_account_check ⟨[⟨"a1", " A ", 0, 0⟩], [], ⟨0, 0, 0, 0⟩⟩ 15 "2024-05"
      (fun _ => "g") ⟨"f1", "T", "A", -100, "", 1⟩ (by decide) (by decide)).2 (by decide)⟩

/-- C6 (counterexample): the add-template handler succeeds and appends
a template whose account name Ghost exists in no account — there is no
account-existence validation in the handler itself (in the app the
account input is a select box restricted to existing account names). -/
theorem C6_counterexample :
    addFixed ⟨[⟨"a1", "A", 0, 0⟩], [], []⟩ "f1" "X" "Ghost" (-10) "" 5
      = some ⟨[⟨"a1", "A", 0, 0⟩], [], [⟨"f1", "X", "Ghost", -10, "", 5⟩]⟩ := by
  decide

/-- C6 (amended): the add-template handler fails (with an error and no
mutation of any collection) exactly when the template name strips to
the empty string; otherwise it appends the template — with stripped
name and memo, the account string as given, and the supplied fresh id —
and mutates nothing else.  Account existence is not validated by the
handler; the form restricts the account input to existing names. -/
theorem C6_add_template (s : Ledger) (id name account : String) (amount : Int)
    (memo : String) (day : Nat) :
    (strip name = "" → addFixed s id name account amount memo day = none) ∧
    (strip name ≠ "" → addFixed s id name account amount memo day =
      some { s with fixedCosts :=
        s.fixedCosts ++ [⟨id, strip name, account, amount, strip memo, day⟩] }) := by
  constructor
  · intro he
    unfold addFixed
    rw [if_pos he]
  · intro he
    unfold addFixed
    rw [if_neg he]

/-- C6 witness: a blank name is rejected; a non-blank one is appended. -/
theorem C6_add_template_witness :
    (addFixed ⟨[], [], []⟩ "f1" "  " "A" (-10) "" 5 = none) ∧
    (addFixed ⟨[], [], []⟩ "f2" " X " "A" (-10) " memo " 5 =
      some ⟨[], [], [⟨"f2", "X", "A", -10, "memo", 5⟩]⟩) := by
  constructor
  · exact (C6_add_template ⟨[], [], []⟩ "f1" "  " "A" (-10) "" 5).1 (by decide)
  · exact ((C6_add_template ⟨[], [], []⟩ "f2" " X " "A" (-10) " memo " 5).2
      (by decide)).trans (by decide)

/-- C8: a template whose day exceeds the current day-of-month is
classified skipped_future, generating no transaction and changing no
balance; a due template with no duplicate and an existing account is
classified added. -/
theorem C8_due_gating (st : BatchState) (td : Nat) (mStr : String)
    (mkId : Nat → String) (fc : FixedCost) :
    (td < fc.day →
      stepOutcome st.accs st.txs td mStr fc = .future ∧
      (batchStep td mStr mkId st fc).txs = st.txs ∧
      (batchStep td mStr mkId st fc).accs = st.accs ∧
      (batchStep td mStr mkId st fc).counts.skippedFuture
        = st.counts.skippedFuture + 1) ∧
    (fc.day ≤ td → st.txs.any (isDupOf mStr fc) = false →
      (accNames st.accs).contains (strip fc.account) = true →
      stepOutcome st.accs st.txs td mStr fc = .added) := by
  constructor
  · intro hf
    have hso : stepOutcome st.accs st.txs td mStr fc = .future := by
      unfold stepOutcome
      rw [if_pos hf]
    refine ⟨hso, ?_⟩
    unfold batchStep
    rw [hso]
    exact ⟨rfl, rfl, rfl⟩
  · intro hdue hnodup hacc
    unfold stepOutcome
    rw [if_neg (by omega), if_neg (by simp [hnodup]), if_pos hacc]

/-- C8 witness: the spec's example — a template with day 28 on current
day 27 is skipped_future with no side effect; on day 28, with no
duplicate and an existing account, it is added. -/
theorem C8_due_gating_witness :
    (stepOutcome [⟨"a1", "A", 0, 0⟩] [] 27 "2024-05" ⟨"f1", "T", "A", -100, "", 28⟩
        = .future ∧
      (batchStep 27 "2024-05" (fun _ => "g")
        ⟨[⟨"a1", "A", 0, 0⟩], [], ⟨0, 0, 0, 0⟩⟩ ⟨"f1", "T", "A", -100, "", 28⟩).txs = [] ∧
      (batchStep 27 "2024-05" (fun _ => "g")
        ⟨[⟨"a1", "A", 0, 0⟩], [], ⟨0, 0, 0, 0⟩⟩ ⟨"f1", "T", "A", -100, "", 28⟩).accs
        = [⟨"a1", "A", 0, 0⟩] ∧
      (batchStep 27 "2024-05" (fun _ => "g")
        ⟨[⟨"a1", "A", 0, 0⟩], [], ⟨0, 0, 0, 0⟩⟩
        ⟨"f1", "T", "A", -100, "", 28⟩).counts.skippedFuture = 0 + 1) ∧
    stepOutcome [⟨"a1", "A", 0, 0⟩] [] 28 "2024-05" ⟨"f1", "T", "A", -100, "", 28⟩
      = .added := by
  constructor
  · exact (C8_due_gating ⟨[⟨"a1", "A", 0, 0⟩], [], ⟨0, 0, 0, 0⟩⟩ 27 "2024-05"
      (fun _ => "g") ⟨"f1", "T", "A", -100, "", 28⟩).1 (by decide)
  · exact (C8_due_gating ⟨[⟨"a1", "A", 0, 0⟩], [], ⟨0, 0, 0, 0⟩⟩ 28 "2024-05"
      (fun _ => "g") ⟨"f1", "T", "A", -100, "", 28⟩).2 (by decide) (by decide) (by decide)

theorem natDigitsAux_congr : ∀ (f1 f2 n : Nat), n < f1 → n < f2 →
    natDigitsAux f1 n = natDigitsAux f2 n := by
  intro f1
  induction f1 with
  | zero => intro f2 n h1 _; omega
  | succ f ih =>
    intro f2 n h1 h2
    obtain ⟨g, rfl⟩ : ∃ g, f2 = g + 1 := ⟨f2 - 1, by omega⟩
    rw [natDigitsAux, natDigitsAux]
    by_cases h : n < 10
    · rw [if_pos h, if_pos h]
    · rw [if_neg h, if_neg h]
      have hrec := ih g (n / 10) (by omega) (by omega)
      rw [hrec]

theorem natDigits_lt10 {n : Nat} (h : n < 10) : natDigits n = [digitChar n] := by
  unfold natDigits
  rw [natDigitsAux, if_pos h]

theorem natDigits_step {n : Nat} (h : 10 ≤ n) :
    natDigits n = natDigits (n / 10) ++ [digitChar (n % 10)] := by
  unfold natDigits
  rw [natDigitsAux, if_neg (by omega)]
  rw [natDigitsAux_congr n (n / 10 + 1) (n / 10) (by omega) (by omega)]

theorem natDigits_two {n : Nat} (h1 : 10 ≤ n) (h2 : n ≤ 99) :
    natDigits n = [digitChar (n / 10), digitChar (n % 10)] := by
  rw [natDigits_step h1, natDigits_lt10 (by omega)]
  rfl

theorem natDigits_four {n : Nat} (h1 : 1000 ≤ n) (h2 : n ≤ 9999) :
    natDigits n = [digitChar (n / 10 / 10 / 10), digitChar (n / 10 / 10 % 10),
      digitChar (n / 10 % 10), digitChar (n % 10)] := by
  rw [natDigits_step (by omega), natDigits_step (by omega), natDigits_step (by omega),
    natDigits_lt10 (by omega)]
  rfl

theorem pad2_digits {n : Nat} (h : n ≤ 99) :
    pad2 n = [digitChar (n / 10), digitChar (n % 10)] := by
  unfold pad2
  by_cases h10 : n < 10
  · rw [if_pos h10, natDigits_lt10 h10]
    have e1 : n / 10 = 0 := by omega
    have e2 : n % 10 = n := by omega
    rw [e1, e2]
    show '0' :: [digitChar n] = digitChar 0 :: [digitChar n]
    have hz : digitChar 0 = '0' := by decide
    rw [hz]
  · rw [if_neg h10, natDigits_two (by omega) h]
    rfl

theorem pad4_digits {n : Nat} (h1 : 1000 ≤ n) (h2 : n ≤ 9999) :
    pad4 n = [digitChar (n / 10 / 10 / 10), digitChar (n / 10 / 10 % 10),
      digitChar (n / 10 % 10), digitChar (n % 10)] := by
  unfold pad4
  rw [if_neg (by omega), if_neg (by omega), if_neg (by omega),
    natDigits_four h1 h2]
  rfl

theorem digitVal_digitChar {k : Nat} (h : k < 10) :
    digitVal (digitChar k) = some k := by
  interval_cases k <;> decide

theorem string_data_append (s t : String) : (s ++ t).data = s.data ++ t.data := by
  cases s
  cases t
  rfl

/-- The target date built by the batch for a real current date and a
template day between 1 and the month length parses back to exactly that
calendar date. -/
theorem parseDateSafe_targetDate (y m d : Nat)
    (hy1 : 1000 ≤ y) (hy2 : y ≤ 9999) (hm1 : 1 ≤ m) (hm2 : m ≤ 12)
    (hd1 : 1 ≤ d) (hd2 : d ≤ daysInMonth y m) :
    parseDateSafe (targetDate (monthString y m) d) = some (y, m, d) := by
  have hd31 : d ≤ 31 := le_trans hd2 (daysInMonth_le y m)
  have hdata : (targetDate (monthString y m) d).data =
      pad4 y ++ '-' :: (pad2 m ++ '-' :: pad2 d) := by
    show ((String.mk (pad4 y) ++ "-" ++ String.mk (pad2 m)) ++ "-" ++ String.mk (pad2 d)).data = _
    rw [string_data_append, string_data_append, string_data_append, string_data_append]
    simp
  unfold parseDateSafe
  rw [hdata, pad4_digits hy1 hy2, pad2_digits (show m ≤ 99 by omega),
    pad2_digits (show d ≤ 99 by omega)]
  have hlist : ([digitChar (y / 10 / 10 / 10), digitChar (y / 10 / 10 % 10),
      digitChar (y / 10 % 10), digitChar (y % 10)] ++ '-' ::
      ([digitChar (m / 10), digitChar (m % 10)] ++ '-' ::
        [digitChar (d / 10), digitChar (d % 10)])).take 10
      = [digitChar (y / 10 / 10 / 10), digitChar (y / 10 / 10 % 10),
          digitChar (y / 10 % 10), digitChar (y % 10), '-',
          digitChar (m / 10), digitChar (m % 10), '-',
          digitChar (d / 10), digitChar (d % 10)] := rfl
  rw [hlist]
  unfold parseDate10
  dsimp only
  rw [if_pos ⟨rfl, rfl⟩]
  rw [digitVal_digitChar (by omega), digitVal_digitChar (by omega),
    digitVal_digitChar (by omega), digitVal_digitChar (by omega),
    digitVal_digitChar (by omega), digitVal_digitChar (by omega),
    digitVal_digitChar (by omega), digitVal_digitChar (by omega)]
  dsimp only
  have hy : ((y / 10 / 10 / 10 * 10 + y / 10 / 10 % 10) * 10 + y / 10 % 10) * 10 + y % 10
      = y := by omega
  have hm : m / 10 * 10 + m % 10 = m := by omega
  have hd : d / 10 * 10 + d % 10 = d := by omega
  rw [hy, hm, hd]
  rw [if_pos ⟨by omega, by omega, by omega, hm2, hd1, hd2⟩]

theorem stepOutcome_added_due {accs : List Account} {txs : List Tx} {td : Nat}
    {mStr : String} {fc : FixedCost}
    (h : stepOutcome accs txs td mStr fc = .added) : fc.day ≤ td := by
  unfold stepOutcome at h
  by_cases hf : td < fc.day
  · rw [if_pos hf] at h
    cases h
  · omega

theorem batchFold_new_parse (y m td : Nat) (mkId : Nat → String)
    (hy1 : 1000 ≤ y) (hy2 : y ≤ 9999) (hm1 : 1 ≤ m) (hm2 : m ≤ 12)
    (htd : td ≤ daysInMonth y m) :
    ∀ (fcs : List FixedCost) (st : BatchState),
      (∀ fc ∈ fcs, 1 ≤ fc.day) →
      ∀ t ∈ (fcs.foldl (batchStep td (monthString y m) mkId) st).txs,
        t ∈ st.txs ∨ parseDateSafe t.date ≠ none := by
  intro fcs
  induction fcs with
  | nil => intro st _ t ht; exact Or.inl ht
  | cons fc rest ih =>
    intro st hdays t ht
    rw [List.foldl_cons] at ht
    rcases ih (batchStep td (monthString y m) mkId st fc)
        (fun x hx => hdays x (List.mem_cons_of_mem fc hx)) t ht with h | h
    · unfold batchStep at h
      cases hso : stepOutcome st.accs st.txs td (monthString y m) fc with
      | future => rw [hso] at h; exact Or.inl h
      | dup => rw [hso] at h; exact Or.inl h
      | noAccount => rw [hso] at h; exact Or.inl h
      | added =>
        rw [hso] at h
        dsimp only at h
        rcases List.mem_append.mp h with h2 | h2
        · exact Or.inl h2
        · have he := List.mem_singleton.mp h2
          subst he
          refine Or.inr ?_
          have hdue : fc.day ≤ td := stepOutcome_added_due hso
          have hday1 : 1 ≤ fc.day := hdays fc (List.mem_cons_self fc rest)
          show parseDateSafe (targetDate (monthString y m) fc.day) ≠ none
          rw [parseDateSafe_targetDate y m fc.day hy1 hy2 hm1 hm2 hday1 (by omega)]
          exact Option.some_ne_none _
    · exact Or.inr h

/-- C10: every transaction created by a batch run for a real current
date (year with four digits, month 1 to 12, day-of-month within the
month) from templates whose day field is at least 1 generates a date
string that parses as a real calendar date — generated transactions
never fall into the unparsable, sorted-to-the-end branch of the
ordering policy. -/
theorem C10_generated_dates (s : Ledger) (y m td : Nat) (mkId : Nat → String)
    (hy1 : 1000 ≤ y) (hy2 : y ≤ 9999) (hm1 : 1 ≤ m) (hm2 : m ≤ 12)
    (htd : td ≤ daysInMonth y m)
    (hdays : ∀ fc ∈ s.fixedCosts, 1 ≤ fc.day) :
    ∀ t ∈ (runBatch s y m td mkId).1.transactions,
      t ∉ s.transactions → parseDateSafe t.date ≠ none := by
  intro t ht hnot
  have ht2 : t ∈ (batchFoldOf s y m td mkId).txs := by
    have ht3 : t ∈ sortTransactions (batchFoldOf s y m td mkId).txs := ht
    exact (sortTransactions_perm _).mem_iff.mp ht3
  rcases batchFold_new_parse y m td mkId hy1 hy2 hm1 hm2 htd s.fixedCosts
      ⟨s.accounts, s.transactions, ⟨0, 0, 0, 0⟩⟩ hdays t ht2 with h | h
  · exact absurd h hnot
  · exact h

/-- C10 witness: the transaction generated on 2024-05-15 from a
template with day 5 carries the date 2024-05-05, which parses. -/
theorem C10_generated_dates_witness :
    parseDateSafe (Tx.date ⟨"g", "2024-05-05", "A", -100, "固定費:T"⟩) ≠ none :=
  C10_generated_dates ⟨[⟨"a1", "A", 0, 0⟩], [], [⟨"f1", "T", "A", -100, "", 5⟩]⟩
    2024 5 15 (fun _ => "g") (by decide) (by decide) (by decide) (by decide)
    (by decide) (by decide)
    ⟨"g", "2024-05-05", "A", -100, "固定費:T"⟩ (by decide) (by decide)
